import Mathlib

/-
Verification of the directory listing proxy in src/gcsproxy/listing_proxy.go.

The Go code is a per-directory cache of GCS listings patched by a journal of
recent local modifications.  We embed it shallowly:

  * Go strings become lists of characters (`Name`).
  * `time.Time` / `time.Duration` become natural numbers (nanoseconds); the
    clock collaborator becomes an explicit `now` argument to each operation.
  * the `map[string]interface{}` contents map becomes an association list
    with Go-map semantics (insert replaces, lookup finds the unique entry);
  * `container/list.List` becomes `List ChildModification`; the element
    pointers of `childModificationsIndex` are represented by the indexed
    names (an index entry designates the unique journal record of that name,
    which is exactly what the invariants of the Go structure guarantee);
  * the bucket collaborator becomes a per-call `BackendResult` value: the
    response the one `gcsutil.List` call of a refresh would produce;
  * fallible methods return `Except ProxyError`; `CheckInvariants`, which
    panics in Go, becomes a decidable proposition meaning "does not panic".
-/

set_option maxRecDepth 10000

namespace GCSProxy

/-- Go strings, as lists of characters. -/
abbrev Name := List Char

/-- A storage object (storage.Object): the proxy only inspects the name
field; everything else the backend returns is an opaque payload. -/
structure StorageObject where
  name : Name
  payload : Nat
deriving DecidableEq

/-- A value of the contents map: Go stores either a string (a sub-directory,
stored as its own name) or a pointer to a storage object. -/
inductive Node where
  | obj : StorageObject → Node
  | subdir : Name → Node
deriving DecidableEq

/-- The full name carried by a contents-map value. -/
def Node.nodeName : Node → Name
  | .obj o => o.name
  | .subdir s => s

/-- A child modification record (see listing_proxy.go): `node = none` is a
removal, otherwise an addition. -/
structure ChildModification where
  expiration : Nat
  name : Name
  node : Option Node
deriving DecidableEq

/-- The contents map: full name to entry, Go-map semantics. -/
abbrev Contents := List (Name × Node)

/-- The mutable state of a ListingProxy.  The bucket and clock dependencies
are modelled as per-call inputs. -/
structure ListingProxy where
  name : Name
  contents : Contents
  contentsExpiration : Nat
  childModifications : List ChildModification
  childModificationsIndex : List Name
deriving DecidableEq

/-- Error taxonomy.  Go uses wrapped error strings; the distinct wrappings
become distinct constructors, each carrying the message. -/
inductive ProxyError where
  | invalidName : String → ProxyError
  | backendListingFailure : String → ProxyError
  | backendInvariantViolation : String → ProxyError
  | notImplemented : String → ProxyError
deriving DecidableEq

deriving instance DecidableEq for Except

/-- ListingProxy_ListingCacheTTL = 10 * time.Second, in nanoseconds. -/
def ListingProxy_ListingCacheTTL : Nat := 10 * 1000000000

/-- ListingProxy_ModificationMemoryTTL = 5 * time.Minute, in nanoseconds. -/
def ListingProxy_ModificationMemoryTTL : Nat := 5 * 60 * 1000000000

/-- isDirName: name == "" or the last byte is a slash. -/
def isDirName (n : Name) : Bool :=
  n = [] ∨ n.getLast? = some '/'

/-- strings.TrimPrefix. -/
def trimPrefix (s pre : Name) : Name :=
  if pre.isPrefixOf s then s.drop pre.length else s

/-- strings.IndexByte for the separator: the index of the first slash, or
-1 when there is none. -/
def indexOfSlash : Name → Int
  | [] => -1
  | c :: rest =>
    if c = '/' then 0
    else
      let r := indexOfSlash rest
      if r < 0 then -1 else r + 1

/-- ListingProxy.checkObjectName (the receiver contributes only its name).
The Go code binds trimmed := strings.TrimPrefix(name, lp.name) once; it is
inlined here. -/
def checkObjectName (lpName n : Name) : Option String :=
  if isDirName n then
    some "Not an object name."
  else if n = trimPrefix n lpName then
    some "Not a descendant."
  else if indexOfSlash (trimPrefix n lpName) ≥ 0 then
    some "Not a direct descendant."
  else
    none

/-- ListingProxy.checkSubdirName (the receiver contributes only its name). -/
def checkSubdirName (lpName n : Name) : Option String :=
  if ¬ isDirName n then
    some "Not a directory name."
  else if n = lpName ∨ n = trimPrefix n lpName then
    some "Not a descendant."
  else if indexOfSlash (trimPrefix n lpName) ≠ ((trimPrefix n lpName).length : Int) - 1 then
    some "Not a direct descendant."
  else
    none

/-- Go map lookup (first matching entry; entries are unique by key in every
reachable state). -/
def mapLookup (k : Name) : Contents → Option Node
  | [] => none
  | p :: rest => if p.1 = k then some p.2 else mapLookup k rest

/-- Go map deletion. -/
def mapErase (k : Name) : Contents → Contents
  | [] => []
  | p :: rest => if p.1 = k then mapErase k rest else p :: mapErase k rest

/-- Go map assignment m[k] = v. -/
def mapInsert (k : Name) (v : Node) (c : Contents) : Contents :=
  (k, v) :: mapErase k c

/-- The freshly constructed state: empty contents, zero expiration (in the
past), empty journal and index. -/
def initProxy (dir : Name) : ListingProxy :=
  { name := dir
    contents := []
    contentsExpiration := 0
    childModifications := []
    childModificationsIndex := [] }

/-- NewListingProxy: fails unless the directory name is legal. -/
def NewListingProxy (dir : Name) : Except String ListingProxy :=
  if isDirName dir then .ok (initProxy dir) else .error "Illegal directory name"

/-- Removal of the journal record designated by an index entry: drop the
unique record with that name from the sequence and the name from the index. -/
def removeRecord (n : Name) (lp : ListingProxy) : ListingProxy :=
  { lp with
      childModifications := lp.childModifications.eraseP (fun m => decide (m.name = n))
      childModificationsIndex := lp.childModificationsIndex.eraseP (fun x => decide (x = n)) }

/-- ListingProxy.cleanChildModifications: collect the names of the leading
run of expired records (stop at the first non-expired one), then remove each
collected name from the sequence and the index. -/
def cleanChildModifications (now : Nat) (lp : ListingProxy) : ListingProxy :=
  let names :=
    (lp.childModifications.takeWhile (fun m => decide (m.expiration ≤ now))).map
      ChildModification.name
  names.foldl (fun s n => removeRecord n s) lp

/-- playBackModification applied to a bare contents map. -/
def applyMod (c : Contents) (m : ChildModification) : Contents :=
  match m.node with
  | none => mapErase m.name c
  | some nd => mapInsert m.name nd c

/-- ListingProxy.playBackModification. -/
def playBackModification (m : ChildModification) (lp : ListingProxy) : ListingProxy :=
  { lp with contents := applyMod lp.contents m }

/-- The supersede step of NoteNewObject: delete any existing journal record
for this name. -/
def supersede (n : Name) (lp : ListingProxy) : ListingProxy :=
  if n ∈ lp.childModificationsIndex then removeRecord n lp else lp

/-- Appending a fresh record at the back of the journal and indexing it. -/
def pushRecord (m : ChildModification) (lp : ListingProxy) : ListingProxy :=
  { lp with
      childModifications := lp.childModifications ++ [m]
      childModificationsIndex := m.name :: lp.childModificationsIndex }

/-- The fresh journal record NoteNewObject creates. -/
def newObjectRecord (now : Nat) (o : StorageObject) : ChildModification :=
  { expiration := now + ListingProxy_ModificationMemoryTTL
    name := o.name
    node := some (.obj o) }

/-- ListingProxy.NoteNewObject, body before the deferred cleanup: validate,
supersede, append the record, and reflect it in the contents. -/
def NoteNewObjectCore (now : Nat) (o : StorageObject) (lp : ListingProxy) :
    Except ProxyError Unit × ListingProxy :=
  match checkObjectName lp.name o.name with
  | some msg => (.error (.invalidName ("Illegal object name: " ++ msg)), lp)
  | none =>
    (.ok (),
      playBackModification (newObjectRecord now o)
        (pushRecord (newObjectRecord now o) (supersede o.name lp)))

/-- ListingProxy.NoteNewObject, including the deferred
cleanChildModifications on every return path. -/
def NoteNewObject (now : Nat) (o : StorageObject) (lp : ListingProxy) :
    Except ProxyError Unit × ListingProxy :=
  let r := NoteNewObjectCore now o lp
  (r.1, cleanChildModifications now r.2)

/-- ListingProxy.NoteNewSubdirectory: validates the name, then returns the
not-implemented error; the deferred cleanup still runs. -/
def NoteNewSubdirectory (now : Nat) (n : Name) (lp : ListingProxy) :
    Except ProxyError Unit × ListingProxy :=
  let r : Except ProxyError Unit :=
    match checkSubdirName lp.name n with
    | some msg => .error (.invalidName ("Illegal sub-directory name: " ++ msg))
    | none => .error (.notImplemented "TODO: Implement NoteNewSubdirectory.")
  (r, cleanChildModifications now lp)

/-- ListingProxy.NoteRemoval: returns the not-implemented error; the
deferred cleanup still runs. -/
def NoteRemoval (now : Nat) (_n : Name) (lp : ListingProxy) :
    Except ProxyError Unit × ListingProxy :=
  (.error (.notImplemented "TODO: Implement NoteRemoval."), cleanChildModifications now lp)

/-- What one gcsutil.List call returns on success: direct child objects and
sub-directory name runs. -/
structure DirListing where
  objects : List StorageObject
  subdirs : List Name
deriving DecidableEq

/-- The behaviour of the listing collaborator for one refresh. -/
inductive BackendResult where
  | ok : DirListing → BackendResult
  | failure : String → BackendResult
deriving DecidableEq

/-- The object-processing loop of ensureContents: skip the placeholder,
validate every other name, insert into the map under construction. -/
def processObjects (lpName : Name) : List StorageObject → Contents → Except ProxyError Contents
  | [], acc => .ok acc
  | o :: rest, acc =>
    if o.name = lpName then
      processObjects lpName rest acc
    else
      match checkObjectName lpName o.name with
      | some msg =>
        .error (.backendInvariantViolation ("List returned bad object name: " ++ msg))
      | none => processObjects lpName rest (mapInsert o.name (.obj o) acc)

/-- The sub-directory-processing loop of ensureContents: validate the name,
re-check strict descendance, insert into the map under construction. -/
def processSubdirs (lpName : Name) : List Name → Contents → Except ProxyError Contents
  | [], acc => .ok acc
  | d :: rest, acc =>
    match checkSubdirName lpName d with
    | some msg =>
      .error (.backendInvariantViolation ("List returned bad sub-dir name: " ++ msg))
    | none =>
      if lpName.isPrefixOf d ∧ d ≠ lpName then
        processSubdirs lpName rest (mapInsert d (.subdir d) acc)
      else
        .error (.backendInvariantViolation "List returned non-descendant directory")

/-- The commit phase of a successful refresh: prune the journal, swap in
the freshly built map and expiration, then play the journal back on top. -/
def refreshedState (now : Nat) (c2 : Contents) (lp : ListingProxy) : ListingProxy :=
  let lp1 := cleanChildModifications now lp
  let lp2 :=
    { lp1 with
        contents := c2
        contentsExpiration := now + ListingProxy_ListingCacheTTL }
  lp2.childModifications.foldl (fun s m => playBackModification m s) lp2

/-- ListingProxy.ensureContents.  The boolean records whether the listing
collaborator was invoked.  On any error the state is returned untouched. -/
def ensureContents (now : Nat) (br : BackendResult) (lp : ListingProxy) :
    Except ProxyError Unit × ListingProxy × Bool :=
  if now < lp.contentsExpiration then
    (.ok (), lp, false)
  else
    match br with
    | .failure msg => (.error (.backendListingFailure ("gcsutil.List: " ++ msg)), lp, true)
    | .ok listing =>
      match processObjects lp.name listing.objects [] with
      | .error e => (.error e, lp, true)
      | .ok c1 =>
        match processSubdirs lp.name listing.subdirs c1 with
        | .error e => (.error e, lp, true)
        | .ok c2 => (.ok (), refreshedState now c2 lp, true)

/-- The object entries of a contents map, in entry order (Go map iteration
order is unspecified; only membership matters). -/
def objectsOf (c : Contents) : List StorageObject :=
  c.filterMap (fun p => match p.2 with | .obj o => some o | .subdir _ => none)

/-- The sub-directory names of a contents map. -/
def subdirsOf (c : Contents) : List Name :=
  c.filterMap (fun p => match p.2 with | .subdir _ => some p.1 | .obj _ => none)

/-- ListingProxy.List: ensure freshness, then read out the contents. -/
def ListDir (now : Nat) (br : BackendResult) (lp : ListingProxy) :
    Except ProxyError (List StorageObject × List Name) × ListingProxy × Bool :=
  match ensureContents now br lp with
  | (.error e, s, b) => (.error e, s, b)
  | (.ok _, s, b) => (.ok (objectsOf s.contents, subdirsOf s.contents), s, b)

/-- The validator CheckInvariants runs on a contents value: checkObjectName
for objects, checkSubdirName for sub-directories. -/
def nodeCheck (lpName : Name) : Node → Option String
  | .obj o => checkObjectName lpName o.name
  | .subdir s => checkSubdirName lpName s

/-- One contents entry is well-formed: the key is a strict descendant of the
directory name, matches the entry's own name, and validates for its kind. -/
def entryOk (lpName : Name) (p : Name × Node) : Prop :=
  (lpName <+: p.1 ∧ p.1 ≠ lpName) ∧ p.1 = p.2.nodeName ∧ nodeCheck lpName p.2 = none

instance (lpName : Name) (p : Name × Node) : Decidable (entryOk lpName p) :=
  inferInstanceAs (Decidable
    ((lpName <+: p.1 ∧ p.1 ≠ lpName) ∧ p.1 = p.2.nodeName ∧ nodeCheck lpName p.2 = none))

/-- ListingProxy.CheckInvariants does not panic. -/
def CheckInvariants (lp : ListingProxy) : Prop :=
  isDirName lp.name = true ∧
  (∀ p ∈ lp.contents, entryOk lp.name p) ∧
  (∀ m ∈ lp.childModifications, mapLookup m.name lp.contents = m.node) ∧
  (lp.childModifications.map ChildModification.name).Nodup ∧
  List.Perm (lp.childModifications.map ChildModification.name) lp.childModificationsIndex

instance (lp : ListingProxy) : Decidable (CheckInvariants lp) :=
  inferInstanceAs (Decidable
    (isDirName lp.name = true ∧
     (∀ p ∈ lp.contents, entryOk lp.name p) ∧
     (∀ m ∈ lp.childModifications, mapLookup m.name lp.contents = m.node) ∧
     (lp.childModifications.map ChildModification.name).Nodup ∧
     List.Perm (lp.childModifications.map ChildModification.name) lp.childModificationsIndex))

/-- One call to the proxy, carrying the clock instant at which it happens
and, for a listing, the backend's would-be response. -/
inductive ProxyOp where
  | noteNewObject : Nat → StorageObject → ProxyOp
  | noteNewSubdirectory : Nat → Name → ProxyOp
  | noteRemoval : Nat → Name → ProxyOp
  | listDir : Nat → BackendResult → ProxyOp

/-- The state after one call (results discarded). -/
def applyOp (lp : ListingProxy) : ProxyOp → ListingProxy
  | .noteNewObject now o => (NoteNewObject now o lp).2
  | .noteNewSubdirectory now n => (NoteNewSubdirectory now n lp).2
  | .noteRemoval now n => (NoteRemoval now n lp).2
  | .listDir now br => (ListDir now br lp).2.1

/-- The state after a sequence of calls. -/
def runOps (lp : ListingProxy) (ops : List ProxyOp) : ListingProxy :=
  ops.foldl applyOp lp

/-- The acceptance condition the spec (section 8) states for the file-name
validator: N starts with P, N differs from P, N does not end with the
separator, and the remainder of N after stripping P contains no separator.
Stated separately from checkObjectName so the two can be compared. -/
def specFileNameOk (P N : Name) : Prop :=
  P <+: N ∧ N ≠ P ∧ N.getLast? ≠ some '/' ∧ '/' ∉ N.drop P.length

instance (P N : Name) : Decidable (specFileNameOk P N) :=
  inferInstanceAs (Decidable
    (P <+: N ∧ N ≠ P ∧ N.getLast? ≠ some '/' ∧ '/' ∉ N.drop P.length))

/-- The acceptance condition the spec (section 8) states for the
subdirectory-name validator: N ends with the separator, N differs from P, N
starts with P, and the remainder of N after stripping P contains exactly one
separator, at its end. -/
def specSubdirNameOk (P N : Name) : Prop :=
  N.getLast? = some '/' ∧ N ≠ P ∧ P <+: N ∧
    (N.drop P.length).count '/' = 1 ∧ (N.drop P.length).getLast? = some '/'

instance (P N : Name) : Decidable (specSubdirNameOk P N) :=
  inferInstanceAs (Decidable
    (N.getLast? = some '/' ∧ N ≠ P ∧ P <+: N ∧
      (N.drop P.length).count '/' = 1 ∧ (N.drop P.length).getLast? = some '/'))

/-- A backend response contains a name the refresh's validation rejects:
some returned object other than the placeholder fails checkObjectName, or
some returned sub-prefix fails checkSubdirName or the strict-descendance
re-check. -/
def hasBadName (lpName : Name) (listing : DirListing) : Prop :=
  (∃ o ∈ listing.objects, o.name ≠ lpName ∧ checkObjectName lpName o.name ≠ none) ∨
  (∃ d ∈ listing.subdirs,
    checkSubdirName lpName d ≠ none ∨ ¬(lpName.isPrefixOf d ∧ d ≠ lpName))

instance (lpName : Name) (listing : DirListing) : Decidable (hasBadName lpName listing) :=
  inferInstanceAs (Decidable
    ((∃ o ∈ listing.objects, o.name ≠ lpName ∧ checkObjectName lpName o.name ≠ none) ∨
     (∃ d ∈ listing.subdirs,
       checkSubdirName lpName d ≠ none ∨ ¬(lpName.isPrefixOf d ∧ d ≠ lpName))))

/-! Lemmas about the contents map. -/

theorem mapLookup_mapErase (k k2 : Name) (c : Contents) :
    mapLookup k (mapErase k2 c) = if k = k2 then none else mapLookup k c := by
  induction c with
  | nil => simp [mapErase, mapLookup]
  | cons p rest ih =>
    by_cases h1 : p.1 = k2 <;> by_cases h2 : p.1 = k <;>
      simp_all [mapErase, mapLookup]

theorem mapLookup_mapInsert (k k2 : Name) (v : Node) (c : Contents) :
    mapLookup k (mapInsert k2 v c) = if k2 = k then some v else mapLookup k c := by
  by_cases h : k2 = k
  · simp [mapInsert, mapLookup, h]
  · simp only [mapInsert, mapLookup, if_neg h, mapLookup_mapErase]
    rw [if_neg (fun hh => h hh.symm)]

theorem mem_mapErase {p : Name × Node} {k : Name} {c : Contents}
    (h : p ∈ mapErase k c) : p ∈ c := by
  induction c with
  | nil => simp [mapErase] at h
  | cons q rest ih =>
    by_cases hq : q.1 = k
    · simp only [mapErase, if_pos hq] at h
      exact List.mem_cons_of_mem q (ih h)
    · simp only [mapErase, if_neg hq, List.mem_cons] at h
      rcases h with h | h
      · exact h ▸ List.mem_cons_self q rest
      · exact List.mem_cons_of_mem q (ih h)

theorem mem_mapInsert {p : Name × Node} {k : Name} {v : Node} {c : Contents}
    (h : p ∈ mapInsert k v c) : p = (k, v) ∨ p ∈ c := by
  simp only [mapInsert, List.mem_cons] at h
  rcases h with h | h
  · exact Or.inl h
  · exact Or.inr (mem_mapErase h)

theorem mapLookup_mem {k : Name} {c : Contents} {v : Node}
    (h : mapLookup k c = some v) : (k, v) ∈ c := by
  induction c with
  | nil => simp [mapLookup] at h
  | cons p rest ih =>
    by_cases hp : p.1 = k
    · simp only [mapLookup, if_pos hp] at h
      cases h
      exact hp ▸ List.mem_cons_self p rest
    · simp only [mapLookup, if_neg hp] at h
      exact List.mem_cons_of_mem p (ih h)

theorem applyMod_lookup_self (c : Contents) (m : ChildModification) :
    mapLookup m.name (applyMod c m) = m.node := by
  cases hn : m.node with
  | none => simp [applyMod, hn, mapLookup_mapErase]
  | some nd => simp [applyMod, hn, mapLookup_mapInsert]

theorem applyMod_lookup_ne (c : Contents) (m : ChildModification) (k : Name)
    (h : k ≠ m.name) : mapLookup k (applyMod c m) = mapLookup k c := by
  cases hn : m.node with
  | none => simp [applyMod, hn, mapLookup_mapErase, h]
  | some nd =>
    rw [applyMod, hn, mapLookup_mapInsert]
    exact if_neg (fun hh => h hh.symm)

theorem foldl_applyMod_lookup_ne (ms : List ChildModification) (c : Contents) (k : Name)
    (h : k ∉ ms.map ChildModification.name) :
    mapLookup k (ms.foldl applyMod c) = mapLookup k c := by
  induction ms generalizing c with
  | nil => rfl
  | cons m rest ih =>
    simp only [List.map_cons, List.mem_cons, not_or] at h
    rw [List.foldl_cons, ih (applyMod c m) h.2, applyMod_lookup_ne c m k h.1]

theorem foldl_applyMod_lookup (ms : List ChildModification) (c : Contents)
    (m : ChildModification) (hnd : (ms.map ChildModification.name).Nodup)
    (hm : m ∈ ms) : mapLookup m.name (ms.foldl applyMod c) = m.node := by
  induction ms generalizing c with
  | nil => cases hm
  | cons m0 rest ih =>
    simp only [List.map_cons, List.nodup_cons] at hnd
    rcases List.mem_cons.mp hm with rfl | hm0
    · rw [List.foldl_cons,
        foldl_applyMod_lookup_ne rest (applyMod c m) m.name hnd.1,
        applyMod_lookup_self]
    · exact List.foldl_cons _ _ ▸ ih (applyMod c m0) hnd.2 hm0

theorem entries_applyMod {E : Name × Node → Prop} {c : Contents} {m : ChildModification}
    (hc : ∀ p ∈ c, E p) (hm : ∀ nd, m.node = some nd → E (m.name, nd)) :
    ∀ p ∈ applyMod c m, E p := by
  intro p hp
  cases hn : m.node with
  | none =>
    rw [applyMod, hn] at hp
    exact hc p (mem_mapErase hp)
  | some nd =>
    rw [applyMod, hn] at hp
    rcases mem_mapInsert hp with rfl | hp2
    · exact hm nd hn
    · exact hc p hp2

theorem entries_foldl_applyMod {E : Name × Node → Prop} {ms : List ChildModification}
    {c : Contents} (hc : ∀ p ∈ c, E p)
    (hms : ∀ m ∈ ms, ∀ nd, m.node = some nd → E (m.name, nd)) :
    ∀ p ∈ ms.foldl applyMod c, E p := by
  induction ms generalizing c with
  | nil => exact hc
  | cons m rest ih =>
    rw [List.foldl_cons]
    exact ih (entries_applyMod hc (hms m (List.mem_cons_self m rest)))
      (fun m2 h2 => hms m2 (List.mem_cons_of_mem m h2))

/-! Lemmas about journal record removal and the cleanup pass. -/

theorem foldl_removeRecord (ns : List Name) (lp : ListingProxy) :
    ns.foldl (fun s n => removeRecord n s) lp =
      { lp with
          childModifications :=
            ns.foldl (fun l n => l.eraseP (fun m => decide (m.name = n)))
              lp.childModifications
          childModificationsIndex :=
            ns.foldl (fun i n => i.eraseP (fun x => decide (x = n)))
              lp.childModificationsIndex } := by
  induction ns generalizing lp with
  | nil => rfl
  | cons n rest ih =>
    rw [List.foldl_cons, ih, List.foldl_cons, List.foldl_cons]
    rfl

theorem foldl_eraseP_takeWhile (p : ChildModification → Bool) (l : List ChildModification) :
    ((l.takeWhile p).map ChildModification.name).foldl
        (fun l2 n => l2.eraseP (fun m => decide (m.name = n))) l = l.dropWhile p := by
  induction l with
  | nil => rfl
  | cons m rest ih =>
    cases hp : p m with
    | false => simp [List.takeWhile_cons, List.dropWhile_cons, hp]
    | true =>
      rw [List.takeWhile_cons, if_pos hp, List.map_cons, List.foldl_cons,
        List.eraseP_cons, List.dropWhile_cons, if_pos hp]
      simp only [decide_True, cond_true]
      exact ih

theorem cleanChildModifications_eq (now : Nat) (lp : ListingProxy) :
    cleanChildModifications now lp =
      { lp with
          childModifications :=
            lp.childModifications.dropWhile (fun m => decide (m.expiration ≤ now))
          childModificationsIndex :=
            ((lp.childModifications.takeWhile
                (fun m => decide (m.expiration ≤ now))).map ChildModification.name).foldl
              (fun i n => i.eraseP (fun x => decide (x = n)))
              lp.childModificationsIndex } := by
  rw [cleanChildModifications, foldl_removeRecord, foldl_eraseP_takeWhile]

theorem names_eraseP (n : Name) (l : List ChildModification) :
    (l.eraseP (fun m => decide (m.name = n))).map ChildModification.name =
      (l.map ChildModification.name).eraseP (fun x => decide (x = n)) := by
  induction l with
  | nil => rfl
  | cons m rest ih =>
    by_cases h : m.name = n
    · simp [List.eraseP_cons, h]
    · simp [List.eraseP_cons, h, ih]

theorem eraseP_decide_eq_erase (l : List Name) (n : Name) :
    l.eraseP (fun x => decide (x = n)) = @List.erase Name instBEqOfDecidableEq l n := by
  induction l with
  | nil => rfl
  | cons x rest ih =>
    by_cases h : x = n
    · simp [List.eraseP_cons, List.erase_cons, h]
    · simp only [List.eraseP_cons, List.erase_cons, h, decide_False, cond_false]
      rw [if_neg (by simpa using h), ih]

theorem foldl_eraseP_sublist (ns : List Name) (l : List ChildModification) :
    List.Sublist (ns.foldl (fun l2 n => l2.eraseP (fun m => decide (m.name = n))) l) l := by
  induction ns generalizing l with
  | nil => exact List.Sublist.refl l
  | cons n rest ih => exact (ih _).trans (List.eraseP_sublist l)

theorem perm_foldl_erase (ns : List Name) {l : List ChildModification} {idx : List Name}
    (h : List.Perm (l.map ChildModification.name) idx) :
    List.Perm
      ((ns.foldl (fun l2 n => l2.eraseP (fun m => decide (m.name = n))) l).map
        ChildModification.name)
      (ns.foldl (fun i n => i.eraseP (fun x => decide (x = n))) idx) := by
  induction ns generalizing l idx with
  | nil => exact h
  | cons n rest ih =>
    rw [List.foldl_cons, List.foldl_cons]
    refine ih ?_
    rw [names_eraseP, eraseP_decide_eq_erase, eraseP_decide_eq_erase]
    exact h.erase n

theorem nodup_names_of_sublist {l1 l2 : List ChildModification} (h : List.Sublist l1 l2)
    (h2 : (l2.map ChildModification.name).Nodup) :
    (l1.map ChildModification.name).Nodup :=
  h2.sublist (h.map ChildModification.name)

theorem mem_dropWhile_of_not {p : ChildModification → Bool} {m : ChildModification}
    {l : List ChildModification} (hm : m ∈ l) (hp : p m = false) :
    m ∈ l.dropWhile p := by
  have hsplit := List.takeWhile_append_dropWhile p l
  rw [← hsplit] at hm
  rcases List.mem_append.mp hm with h | h
  · rw [List.mem_takeWhile_imp h] at hp
    cases hp
  · exact h

/-! Lemmas about names and the validators. -/

theorem isDirName_false_iff (n : Name) :
    isDirName n = false ↔ (n ≠ [] ∧ n.getLast? ≠ some '/') := by
  simp [isDirName, not_or]

theorem indexOfSlash_neg_iff (l : Name) : indexOfSlash l < 0 ↔ '/' ∉ l := by
  induction l with
  | nil => simp [indexOfSlash]
  | cons c rest ih =>
    by_cases h : c = '/'
    · simp [indexOfSlash, h]
    · have hne : ¬ '/' = c := fun hh => h hh.symm
      by_cases hr : indexOfSlash rest < 0
      · have hmem : '/' ∉ rest := ih.mp hr
        simp [indexOfSlash, h, hr, hmem, hne]
      · have hpos : ¬ indexOfSlash rest + 1 < 0 := by omega
        have hmem : '/' ∈ rest := by
          by_contra hc
          exact hr (ih.mpr hc)
        simp [indexOfSlash, h, hr, hpos, hmem]

theorem indexOfSlash_nonneg_iff (l : Name) : 0 ≤ indexOfSlash l ↔ '/' ∈ l := by
  have h := indexOfSlash_neg_iff l
  constructor
  · intro h0
    by_contra hc
    have h2 := h.mpr hc
    omega
  · intro hmem
    by_contra hc
    exact h.mp (by omega) hmem

theorem trimPrefix_eq_drop {pre s : Name} (h : pre <+: s) :
    trimPrefix s pre = s.drop pre.length := by
  rw [trimPrefix, if_pos (List.isPrefixOf_iff_prefix.mpr h)]

theorem ne_trimPrefix_iff (P N : Name) : N ≠ trimPrefix N P ↔ (P <+: N ∧ P ≠ []) := by
  constructor
  · intro h
    by_cases hp : P.isPrefixOf N
    · refine ⟨List.isPrefixOf_iff_prefix.mp hp, ?_⟩
      rintro rfl
      rw [trimPrefix, if_pos hp] at h
      simp at h
    · rw [trimPrefix, if_neg hp] at h
      exact absurd rfl h
  · rintro ⟨hpre, hne⟩
    rw [trimPrefix_eq_drop hpre]
    intro heq
    have h1 : P.length ≤ N.length := hpre.length_le
    have h2 : 0 < P.length := List.length_pos.mpr hne
    have h3 := congrArg List.length heq
    rw [List.length_drop] at h3
    omega

theorem checkObjectName_none_iff (P N : Name) :
    checkObjectName P N = none ↔
      (isDirName N = false ∧ N ≠ trimPrefix N P ∧ '/' ∉ trimPrefix N P) := by
  simp only [checkObjectName]
  by_cases h1 : isDirName N = true
  · rw [if_pos h1]
    simp [h1]
  · have h1f : isDirName N = false := by simpa using h1
    rw [if_neg h1]
    by_cases h2 : N = trimPrefix N P
    · rw [if_pos h2]
      constructor
      · intro hc
        cases hc
      · rintro ⟨-, hne, -⟩
        exact absurd h2 hne
    · rw [if_neg h2]
      by_cases h3 : indexOfSlash (trimPrefix N P) ≥ 0
      · rw [if_pos h3]
        have hmem : '/' ∈ trimPrefix N P := (indexOfSlash_nonneg_iff _).mp h3
        constructor
        · intro hc
          cases hc
        · rintro ⟨-, -, hns⟩
          exact absurd hmem hns
      · rw [if_neg h3]
        have hmem : '/' ∉ trimPrefix N P :=
          fun hm => h3 ((indexOfSlash_nonneg_iff _).mpr hm)
        simp [h1f, h2, hmem]

theorem checkSubdirName_none_iff (P N : Name) :
    checkSubdirName P N = none ↔
      (isDirName N = true ∧ ¬(N = P ∨ N = trimPrefix N P) ∧
        indexOfSlash (trimPrefix N P) = ((trimPrefix N P).length : Int) - 1) := by
  simp only [checkSubdirName]
  by_cases h1 : isDirName N = true
  · rw [if_neg (by simp [h1])]
    by_cases h2 : N = P ∨ N = trimPrefix N P
    · rw [if_pos h2]
      constructor
      · intro hc
        cases hc
      · rintro ⟨-, hn2, -⟩
        exact absurd h2 hn2
    · rw [if_neg h2]
      by_cases h3 : indexOfSlash (trimPrefix N P) ≠ ((trimPrefix N P).length : Int) - 1
      · rw [if_pos h3]
        constructor
        · intro hc
          cases hc
        · rintro ⟨-, -, h33⟩
          exact absurd h33 h3
      · rw [if_neg h3]
        push_neg at h3
        simp [h1, h2, h3]
  · rw [if_pos (by simp [h1])]
    constructor
    · intro hc
      cases hc
    · rintro ⟨h11, -, -⟩
      exact absurd h11 h1

theorem checkObjectName_none_strict {P N : Name} (hP : isDirName P = true)
    (h : checkObjectName P N = none) : P <+: N ∧ N ≠ P := by
  obtain ⟨hd, hne, _⟩ := (checkObjectName_none_iff P N).mp h
  obtain ⟨hpre, _⟩ := (ne_trimPrefix_iff P N).mp hne
  refine ⟨hpre, fun hNP => ?_⟩
  rw [hNP, hP] at hd
  cases hd

theorem checkSubdirName_none_strict {P N : Name} (h : checkSubdirName P N = none) :
    P <+: N ∧ N ≠ P := by
  obtain ⟨_, hne, _⟩ := (checkSubdirName_none_iff P N).mp h
  push_neg at hne
  exact ⟨((ne_trimPrefix_iff P N).mp hne.2).1, hne.1⟩

theorem entryOk_obj {P : Name} {o : StorageObject} (hP : isDirName P = true)
    (h : checkObjectName P o.name = none) : entryOk P (o.name, Node.obj o) :=
  ⟨checkObjectName_none_strict hP h, rfl, h⟩

theorem entryOk_subdir {P s : Name} (h : checkSubdirName P s = none) :
    entryOk P (s, Node.subdir s) :=
  ⟨checkSubdirName_none_strict h, rfl, h⟩

theorem record_entryOk {lp : ListingProxy} (hinv : CheckInvariants lp)
    {m : ChildModification} (hm : m ∈ lp.childModifications) {nd : Node}
    (hnd : m.node = some nd) : entryOk lp.name (m.name, nd) := by
  have h3 : mapLookup m.name lp.contents = some nd := by
    rw [hinv.2.2.1 m hm, hnd]
  exact hinv.2.1 _ (mapLookup_mem h3)

/-! Lemmas about the refresh pipeline. -/

theorem processObjects_ok_entries {lpName : Name} {objs : List StorageObject}
    {acc c : Contents} (hP : isDirName lpName = true)
    (h : processObjects lpName objs acc = .ok c)
    (hacc : ∀ p ∈ acc, entryOk lpName p) : ∀ p ∈ c, entryOk lpName p := by
  induction objs generalizing acc with
  | nil =>
    simp only [processObjects] at h
    cases h
    exact hacc
  | cons o rest ih =>
    simp only [processObjects] at h
    by_cases h1 : o.name = lpName
    · rw [if_pos h1] at h
      exact ih h hacc
    · rw [if_neg h1] at h
      cases hchk : checkObjectName lpName o.name with
      | some msg =>
        simp only [hchk] at h
        exact Except.noConfusion h
      | none =>
        simp only [hchk] at h
        refine ih h ?_
        intro p hp
        rcases mem_mapInsert hp with rfl | hp2
        · exact entryOk_obj hP hchk
        · exact hacc p hp2

theorem processSubdirs_ok_entries {lpName : Name} {ds : List Name} {acc c : Contents}
    (h : processSubdirs lpName ds acc = .ok c)
    (hacc : ∀ p ∈ acc, entryOk lpName p) : ∀ p ∈ c, entryOk lpName p := by
  induction ds generalizing acc with
  | nil =>
    simp only [processSubdirs] at h
    cases h
    exact hacc
  | cons d rest ih =>
    simp only [processSubdirs] at h
    cases hchk : checkSubdirName lpName d with
    | some msg =>
      simp only [hchk] at h
      exact Except.noConfusion h
    | none =>
      simp only [hchk] at h
      by_cases h1 : lpName.isPrefixOf d ∧ d ≠ lpName
      · rw [if_pos h1] at h
        refine ih h ?_
        intro p hp
        rcases mem_mapInsert hp with rfl | hp2
        · exact entryOk_subdir hchk
        · exact hacc p hp2
      · rw [if_neg h1] at h
        cases h

theorem processObjects_ok_no_bad {lpName : Name} {objs : List StorageObject}
    {acc c : Contents} (h : processObjects lpName objs acc = .ok c) :
    ∀ o ∈ objs, o.name = lpName ∨ checkObjectName lpName o.name = none := by
  induction objs generalizing acc with
  | nil =>
    intro o ho
    cases ho
  | cons o2 rest ih =>
    simp only [processObjects] at h
    intro o ho
    by_cases h1 : o2.name = lpName
    · rw [if_pos h1] at h
      rcases List.mem_cons.mp ho with rfl | ho2
      · exact Or.inl h1
      · exact ih h o ho2
    · rw [if_neg h1] at h
      cases hchk : checkObjectName lpName o2.name with
      | some msg =>
        simp only [hchk] at h
        exact Except.noConfusion h
      | none =>
        simp only [hchk] at h
        rcases List.mem_cons.mp ho with rfl | ho2
        · exact Or.inr hchk
        · exact ih h o ho2

theorem processSubdirs_ok_no_bad {lpName : Name} {ds : List Name} {acc c : Contents}
    (h : processSubdirs lpName ds acc = .ok c) :
    ∀ d ∈ ds, checkSubdirName lpName d = none ∧ (lpName.isPrefixOf d ∧ d ≠ lpName) := by
  induction ds generalizing acc with
  | nil =>
    intro d hd
    cases hd
  | cons d2 rest ih =>
    simp only [processSubdirs] at h
    intro d hd
    cases hchk : checkSubdirName lpName d2 with
    | some msg =>
      simp only [hchk] at h
      exact Except.noConfusion h
    | none =>
      simp only [hchk] at h
      by_cases h1 : lpName.isPrefixOf d2 ∧ d2 ≠ lpName
      · rw [if_pos h1] at h
        rcases List.mem_cons.mp hd with rfl | hd2
        · exact ⟨hchk, h1⟩
        · exact ih h d hd2
      · rw [if_neg h1] at h
        cases h

theorem processObjects_error_of_bad (lpName : Name) (objs : List StorageObject) :
    (∃ o ∈ objs, o.name ≠ lpName ∧ checkObjectName lpName o.name ≠ none) →
    ∀ acc, ∃ msg,
      processObjects lpName objs acc = .error (.backendInvariantViolation msg) := by
  induction objs with
  | nil =>
    rintro ⟨o, ho, -⟩
    cases ho
  | cons o2 rest ih =>
    rintro ⟨o, ho, hne, hchk⟩ acc
    simp only [processObjects]
    rcases List.mem_cons.mp ho with rfl | ho2
    · rw [if_neg hne]
      cases hc : checkObjectName lpName o.name with
      | some msg => exact ⟨"List returned bad object name: " ++ msg, by simp [hc]⟩
      | none => exact absurd hc hchk
    · by_cases h1 : o2.name = lpName
      · rw [if_pos h1]
        exact ih ⟨o, ho2, hne, hchk⟩ acc
      · rw [if_neg h1]
        cases hc : checkObjectName lpName o2.name with
        | some msg => exact ⟨"List returned bad object name: " ++ msg, by simp [hc]⟩
        | none =>
          simp only [hc]
          exact ih ⟨o, ho2, hne, hchk⟩ _

theorem processSubdirs_error_of_bad (lpName : Name) (ds : List Name) :
    (∃ d ∈ ds, checkSubdirName lpName d ≠ none ∨ ¬(lpName.isPrefixOf d ∧ d ≠ lpName)) →
    ∀ acc, ∃ msg,
      processSubdirs lpName ds acc = .error (.backendInvariantViolation msg) := by
  induction ds with
  | nil =>
    rintro ⟨d, hd, -⟩
    cases hd
  | cons d2 rest ih =>
    rintro ⟨d, hd, hbad⟩ acc
    simp only [processSubdirs]
    rcases List.mem_cons.mp hd with rfl | hd2
    · cases hc : checkSubdirName lpName d with
      | some msg => exact ⟨"List returned bad sub-dir name: " ++ msg, by simp [hc]⟩
      | none =>
        simp only [hc]
        rcases hbad with hbad | hbad
        · exact absurd hc hbad
        · rw [if_neg hbad]
          exact ⟨_, rfl⟩
    · cases hc : checkSubdirName lpName d2 with
      | some msg => exact ⟨"List returned bad sub-dir name: " ++ msg, by simp [hc]⟩
      | none =>
        simp only [hc]
        by_cases h1 : lpName.isPrefixOf d2 ∧ d2 ≠ lpName
        · rw [if_pos h1]
          exact ih ⟨d, hd2, hbad⟩ _
        · rw [if_neg h1]
          exact ⟨_, rfl⟩

theorem processObjects_shape (lpName : Name) (objs : List StorageObject) :
    ∀ acc, (∃ c, processObjects lpName objs acc = .ok c) ∨
      (∃ msg, processObjects lpName objs acc = .error (.backendInvariantViolation msg)) := by
  induction objs with
  | nil =>
    intro acc
    exact Or.inl ⟨acc, rfl⟩
  | cons o rest ih =>
    intro acc
    simp only [processObjects]
    by_cases h1 : o.name = lpName
    · rw [if_pos h1]
      exact ih acc
    · rw [if_neg h1]
      cases hc : checkObjectName lpName o.name with
      | some msg =>
        simp only [hc]
        exact Or.inr ⟨_, rfl⟩
      | none =>
        simp only [hc]
        exact ih _

theorem ensureContents_fresh {now : Nat} {br : BackendResult} {lp : ListingProxy}
    (h : now < lp.contentsExpiration) :
    ensureContents now br lp = (.ok (), lp, false) := by
  rw [ensureContents.eq_def, if_pos h]

theorem ensureContents_failure {now : Nat} {msg : String} {lp : ListingProxy}
    (h : ¬ now < lp.contentsExpiration) :
    ensureContents now (.failure msg) lp =
      (.error (.backendListingFailure ("gcsutil.List: " ++ msg)), lp, true) := by
  rw [ensureContents.eq_def, if_neg h]

theorem ensureContents_error_frame {now : Nat} {br : BackendResult} {lp : ListingProxy}
    {e : ProxyError} {s : ListingProxy} {b : Bool}
    (h : ensureContents now br lp = (.error e, s, b)) : s = lp ∧ b = true := by
  rw [ensureContents.eq_def] at h
  by_cases hf : now < lp.contentsExpiration
  · rw [if_pos hf] at h
    simp at h
  · rw [if_neg hf] at h
    cases br with
    | failure msg =>
      simp only [Prod.mk.injEq] at h
      exact ⟨h.2.1.symm, h.2.2.symm⟩
    | ok listing =>
      cases hpo : processObjects lp.name listing.objects [] with
      | error e2 =>
        simp only [hpo, Prod.mk.injEq] at h
        exact ⟨h.2.1.symm, h.2.2.symm⟩
      | ok c1 =>
        simp only [hpo] at h
        cases hps : processSubdirs lp.name listing.subdirs c1 with
        | error e2 =>
          simp only [hps, Prod.mk.injEq] at h
          exact ⟨h.2.1.symm, h.2.2.symm⟩
        | ok c2 =>
          simp only [hps] at h
          simp at h

theorem ensureContents_ok_stale {now : Nat} {br : BackendResult} {lp : ListingProxy}
    {u : Unit} {s : ListingProxy} {b : Bool} (hst : ¬ now < lp.contentsExpiration)
    (h : ensureContents now br lp = (.ok u, s, b)) :
    b = true ∧ ∃ listing c1 c2, br = .ok listing ∧
      processObjects lp.name listing.objects [] = .ok c1 ∧
      processSubdirs lp.name listing.subdirs c1 = .ok c2 ∧
      s = refreshedState now c2 lp := by
  rw [ensureContents.eq_def, if_neg hst] at h
  cases br with
  | failure msg => simp at h
  | ok listing =>
    cases hpo : processObjects lp.name listing.objects [] with
    | error e2 =>
      simp only [hpo] at h
      simp at h
    | ok c1 =>
      simp only [hpo] at h
      cases hps : processSubdirs lp.name listing.subdirs c1 with
      | error e2 =>
        simp only [hps] at h
        simp at h
      | ok c2 =>
        simp only [hps, Prod.mk.injEq] at h
        exact ⟨h.2.2.symm, listing, c1, c2, rfl, hpo, hps, h.2.1.symm⟩

theorem foldl_playBack_eq (ms : List ChildModification) (lp : ListingProxy) :
    ms.foldl (fun s m => playBackModification m s) lp =
      { lp with contents := ms.foldl applyMod lp.contents } := by
  induction ms generalizing lp with
  | nil =>
    rfl
  | cons m rest ih =>
    rw [List.foldl_cons, ih]
    rfl

theorem refreshedState_eq (now : Nat) (c2 : Contents) (lp : ListingProxy) :
    refreshedState now c2 lp =
      { name := lp.name
        contents := (cleanChildModifications now lp).childModifications.foldl applyMod c2
        contentsExpiration := now + ListingProxy_ListingCacheTTL
        childModifications := (cleanChildModifications now lp).childModifications
        childModificationsIndex := (cleanChildModifications now lp).childModificationsIndex } := by
  rw [refreshedState, foldl_playBack_eq, cleanChildModifications_eq]

theorem ListDir_of_ensure_ok {now : Nat} {br : BackendResult} {lp : ListingProxy}
    {u : Unit} {s : ListingProxy} {b : Bool}
    (h : ensureContents now br lp = (.ok u, s, b)) :
    ListDir now br lp = (.ok (objectsOf s.contents, subdirsOf s.contents), s, b) := by
  rw [ListDir, h]

theorem ListDir_of_ensure_error {now : Nat} {br : BackendResult} {lp : ListingProxy}
    {e : ProxyError} {s : ListingProxy} {b : Bool}
    (h : ensureContents now br lp = (.error e, s, b)) :
    ListDir now br lp = (.error e, s, b) := by
  rw [ListDir, h]

theorem mem_objectsOf {c : Contents} {o : StorageObject} :
    o ∈ objectsOf c ↔ ∃ p ∈ c, p.2 = Node.obj o := by
  rw [objectsOf, List.mem_filterMap]
  constructor
  · rintro ⟨p, hp, hf⟩
    refine ⟨p, hp, ?_⟩
    cases h2 : p.2 with
    | obj o2 =>
      rw [h2] at hf
      simp only [Option.some.injEq] at hf
      rw [hf]
    | subdir s2 =>
      rw [h2] at hf
      cases hf
  · rintro ⟨p, hp, h2⟩
    exact ⟨p, hp, by rw [h2]⟩

/-! Invariant preservation. -/

theorem cleanChildModifications_foldl (now : Nat) (lp : ListingProxy) :
    cleanChildModifications now lp =
      { lp with
          childModifications :=
            ((lp.childModifications.takeWhile (fun m => decide (m.expiration ≤ now))).map
                ChildModification.name).foldl
              (fun l n => l.eraseP (fun m => decide (m.name = n))) lp.childModifications
          childModificationsIndex :=
            ((lp.childModifications.takeWhile (fun m => decide (m.expiration ≤ now))).map
                ChildModification.name).foldl
              (fun i n => i.eraseP (fun x => decide (x = n)))
              lp.childModificationsIndex } := by
  simp only [cleanChildModifications]
  rw [foldl_removeRecord]

theorem clean_journal_sublist (now : Nat) (lp : ListingProxy) :
    List.Sublist (cleanChildModifications now lp).childModifications
      lp.childModifications := by
  rw [cleanChildModifications_foldl]
  exact foldl_eraseP_sublist _ _

theorem inv_clean {lp : ListingProxy} (hinv : CheckInvariants lp) (now : Nat) :
    CheckInvariants (cleanChildModifications now lp) := by
  rw [cleanChildModifications_foldl]
  refine ⟨hinv.1, hinv.2.1, ?_, ?_, ?_⟩
  · intro m hm
    exact hinv.2.2.1 m ((foldl_eraseP_sublist _ _).subset hm)
  · exact nodup_names_of_sublist (foldl_eraseP_sublist _ _) hinv.2.2.2.1
  · exact perm_foldl_erase _ hinv.2.2.2.2

theorem not_mem_eraseP_self {l : List Name} (n : Name) (h : l.Nodup) :
    n ∉ l.eraseP (fun x => decide (x = n)) := by
  induction l with
  | nil => simp
  | cons x rest ih =>
    rw [List.eraseP_cons]
    by_cases hx : x = n
    · subst hx
      simp only [decide_True, cond_true]
      exact (List.nodup_cons.mp h).1
    · simp only [hx, decide_False, cond_false]
      intro hmem
      rcases List.mem_cons.mp hmem with rfl | hmem2
      · exact hx rfl
      · exact ih (List.nodup_cons.mp h).2 hmem2

theorem supersede_inv {lp : ListingProxy} (hinv : CheckInvariants lp) (n : Name) :
    CheckInvariants (supersede n lp) ∧
      n ∉ ((supersede n lp).childModifications.map ChildModification.name) ∧
      (supersede n lp).name = lp.name ∧
      (supersede n lp).contents = lp.contents ∧
      (supersede n lp).contentsExpiration = lp.contentsExpiration ∧
      List.Sublist (supersede n lp).childModifications lp.childModifications := by
  rw [supersede]
  by_cases hmem : n ∈ lp.childModificationsIndex
  · rw [if_pos hmem]
    have hnodup := hinv.2.2.2.1
    refine ⟨⟨hinv.1, hinv.2.1, ?_, ?_, ?_⟩, ?_, rfl, rfl, rfl, ?_⟩
    · intro m hm
      exact hinv.2.2.1 m ((List.eraseP_sublist _).subset hm)
    · exact nodup_names_of_sublist (List.eraseP_sublist _) hnodup
    · show List.Perm
        ((lp.childModifications.eraseP (fun m => decide (m.name = n))).map
          ChildModification.name)
        (lp.childModificationsIndex.eraseP (fun x => decide (x = n)))
      rw [names_eraseP, eraseP_decide_eq_erase, eraseP_decide_eq_erase]
      exact hinv.2.2.2.2.erase n
    · show n ∉ (lp.childModifications.eraseP (fun m => decide (m.name = n))).map
        ChildModification.name
      rw [names_eraseP]
      exact not_mem_eraseP_self n hnodup
    · exact List.eraseP_sublist _
  · rw [if_neg hmem]
    refine ⟨hinv, ?_, rfl, rfl, rfl, List.Sublist.refl _⟩
    intro hcon
    exact hmem (hinv.2.2.2.2.mem_iff.mp hcon)

theorem inv_push_playBack {s0 : ListingProxy} (hinv : CheckInvariants s0)
    {m : ChildModification}
    (hnot : m.name ∉ s0.childModifications.map ChildModification.name) {nd : Node}
    (hnd : m.node = some nd) (hok : entryOk s0.name (m.name, nd)) :
    CheckInvariants (playBackModification m (pushRecord m s0)) := by
  have hcont :
      (playBackModification m (pushRecord m s0)).contents = mapInsert m.name nd s0.contents := by
    simp [playBackModification, pushRecord, applyMod, hnd]
  refine ⟨hinv.1, ?_, ?_, ?_, ?_⟩
  · rw [hcont]
    intro p hp
    rcases mem_mapInsert hp with rfl | hp2
    · exact hok
    · exact hinv.2.1 p hp2
  · intro m2 hm2
    rw [hcont]
    have hm2a : m2 ∈ s0.childModifications ++ [m] := hm2
    rcases List.mem_append.mp hm2a with hin | hm_eq
    · have hne : m.name ≠ m2.name :=
        fun he => hnot (he ▸ List.mem_map_of_mem ChildModification.name hin)
      rw [mapLookup_mapInsert, if_neg hne]
      exact hinv.2.2.1 m2 hin
    · have hm2e : m2 = m := by simpa using hm_eq
      subst hm2e
      rw [mapLookup_mapInsert, if_pos rfl, hnd]
  · show ((s0.childModifications ++ [m]).map ChildModification.name).Nodup
    rw [List.map_append]
    simp [List.nodup_append, hinv.2.2.2.1, hnot]
  · show List.Perm ((s0.childModifications ++ [m]).map ChildModification.name)
      (m.name :: s0.childModificationsIndex)
    rw [List.map_append]
    exact (List.perm_append_singleton _ _).trans (hinv.2.2.2.2.cons m.name)

theorem inv_NoteNewObjectCore (now : Nat) (o : StorageObject) {lp : ListingProxy}
    (hinv : CheckInvariants lp) : CheckInvariants (NoteNewObjectCore now o lp).2 := by
  cases hchk : checkObjectName lp.name o.name with
  | some msg =>
    simp only [NoteNewObjectCore, hchk]
    exact hinv
  | none =>
    simp only [NoteNewObjectCore, hchk]
    obtain ⟨hs_inv, hs_notmem, hs_name, hs_contents, hs_exp, hs_sub⟩ :=
      supersede_inv hinv o.name
    refine inv_push_playBack hs_inv hs_notmem rfl ?_
    rw [hs_name]
    exact entryOk_obj hinv.1 hchk

theorem inv_NoteNewObject (now : Nat) (o : StorageObject) {lp : ListingProxy}
    (hinv : CheckInvariants lp) : CheckInvariants (NoteNewObject now o lp).2 := by
  simp only [NoteNewObject]
  exact inv_clean (inv_NoteNewObjectCore now o hinv) now

theorem inv_NoteNewSubdirectory (now : Nat) (n : Name) {lp : ListingProxy}
    (hinv : CheckInvariants lp) : CheckInvariants (NoteNewSubdirectory now n lp).2 := by
  simp only [NoteNewSubdirectory]
  exact inv_clean hinv now

theorem inv_NoteRemoval (now : Nat) (n : Name) {lp : ListingProxy}
    (hinv : CheckInvariants lp) : CheckInvariants (NoteRemoval now n lp).2 := by
  simp only [NoteRemoval]
  exact inv_clean hinv now

theorem inv_refreshedState {now : Nat} {c2 : Contents} {lp : ListingProxy}
    (hinv : CheckInvariants lp) (hc2 : ∀ p ∈ c2, entryOk lp.name p) :
    CheckInvariants (refreshedState now c2 lp) := by
  have hcl := inv_clean hinv now
  rw [refreshedState_eq]
  refine ⟨hinv.1, ?_, ?_, hcl.2.2.2.1, hcl.2.2.2.2⟩
  · refine entries_foldl_applyMod hc2 ?_
    intro m hm nd hnd
    exact record_entryOk hinv ((clean_journal_sublist now lp).subset hm) hnd
  · intro m hm
    exact foldl_applyMod_lookup _ c2 m hcl.2.2.2.1 hm

theorem ListDir_state (now : Nat) (br : BackendResult) (lp : ListingProxy) :
    (ListDir now br lp).2 = (ensureContents now br lp).2 := by
  rcases he : ensureContents now br lp with ⟨r, s, b⟩
  cases r with
  | error e => rw [ListDir, he]
  | ok u => rw [ListDir, he]

theorem inv_ensureContents (now : Nat) (br : BackendResult) {lp : ListingProxy}
    (hinv : CheckInvariants lp) : CheckInvariants (ensureContents now br lp).2.1 := by
  by_cases hf : now < lp.contentsExpiration
  · rw [ensureContents_fresh hf]
    exact hinv
  · cases br with
    | failure msg =>
      rw [ensureContents_failure hf]
      exact hinv
    | ok listing =>
      rw [ensureContents.eq_def, if_neg hf]
      cases hpo : processObjects lp.name listing.objects [] with
      | error e =>
        simp only [hpo]
        exact hinv
      | ok c1 =>
        simp only [hpo]
        cases hps : processSubdirs lp.name listing.subdirs c1 with
        | error e =>
          simp only [hps]
          exact hinv
        | ok c2 =>
          simp only [hps]
          refine inv_refreshedState hinv ?_
          refine processSubdirs_ok_entries hps ?_
          refine processObjects_ok_entries hinv.1 hpo ?_
          intro p hp
          cases hp

theorem inv_ListDir (now : Nat) (br : BackendResult) {lp : ListingProxy}
    (hinv : CheckInvariants lp) : CheckInvariants (ListDir now br lp).2.1 := by
  have h := ListDir_state now br lp
  have h1 : (ListDir now br lp).2.1 = (ensureContents now br lp).2.1 := by rw [h]
  rw [h1]
  exact inv_ensureContents now br hinv

theorem inv_applyOp {lp : ListingProxy} (hinv : CheckInvariants lp) (op : ProxyOp) :
    CheckInvariants (applyOp lp op) := by
  cases op with
  | noteNewObject now o => exact inv_NoteNewObject now o hinv
  | noteNewSubdirectory now n => exact inv_NoteNewSubdirectory now n hinv
  | noteRemoval now n => exact inv_NoteRemoval now n hinv
  | listDir now br => exact inv_ListDir now br hinv

theorem runOps_inv (ops : List ProxyOp) {lp : ListingProxy}
    (hinv : CheckInvariants lp) : CheckInvariants (runOps lp ops) := by
  induction ops generalizing lp with
  | nil => exact hinv
  | cons op rest ih => exact ih (inv_applyOp hinv op)

theorem inv_initProxy {dir : Name} (hd : isDirName dir = true) :
    CheckInvariants (initProxy dir) :=
  ⟨hd, fun p hp => absurd hp (List.not_mem_nil p),
    fun m hm => absurd hm (List.not_mem_nil m), List.nodup_nil, List.Perm.nil⟩

/-! Claim theorems: unimplemented stubs and the root-validator defect. -/

/-- Claim C1: the claim says NoteRemoval succeeds on every legal file or
subdirectory name, journals a removal record and deletes the name from the
snapshot.  The code contradicts this (and its own doc comment): NoteRemoval
is a stub.  At the failing input — directory "a/", legal file name "a/x"
made present by NoteNewObject — NoteRemoval returns the TODO
not-implemented error, leaves the state completely unchanged (journals
nothing), and the name is still in the contents snapshot, so a following
List at the same instant still returns it. -/
theorem claim_C1_noteRemoval_stub :
    checkObjectName ['a', '/'] ['a', '/', 'x'] = none ∧
    (NoteRemoval 0 ['a', '/', 'x']
        (NoteNewObject 0 ⟨['a', '/', 'x'], 1⟩ (initProxy ['a', '/'])).2).1 =
      .error (.notImplemented "TODO: Implement NoteRemoval.") ∧
    (NoteRemoval 0 ['a', '/', 'x']
        (NoteNewObject 0 ⟨['a', '/', 'x'], 1⟩ (initProxy ['a', '/'])).2).2 =
      (NoteNewObject 0 ⟨['a', '/', 'x'], 1⟩ (initProxy ['a', '/'])).2 ∧
    mapLookup ['a', '/', 'x']
        (NoteRemoval 0 ['a', '/', 'x']
          (NoteNewObject 0 ⟨['a', '/', 'x'], 1⟩ (initProxy ['a', '/'])).2).2.contents =
      some (.obj ⟨['a', '/', 'x'], 1⟩) := by
  decide

/-- Claim C2: the claim says NoteNewSubdirectory journals an addition with
supersede and applies it to the snapshot.  The code contradicts this (and
its own doc comment): after successfully validating the name it returns the
TODO not-implemented error and changes nothing.  At the failing input —
directory "a/", legal subdirectory name "a/b/" — the call errors and the
state (journal and contents included) is exactly the fresh state. -/
theorem claim_C2_noteNewSubdirectory_stub :
    checkSubdirName ['a', '/'] ['a', '/', 'b', '/'] = none ∧
    NoteNewSubdirectory 0 ['a', '/', 'b', '/'] (initProxy ['a', '/']) =
      (.error (.notImplemented "TODO: Implement NoteNewSubdirectory."),
        initProxy ['a', '/']) := by
  decide

/-- Claim C3: the claim says the validators implement the spec's acceptance
conditions for every valid directory identity P, "in particular when P is
the empty root identity".  The code contradicts this for the root: because
strings.TrimPrefix leaves a name unchanged when the prefix is empty, the
"Not a descendant" branch fires for every name, although the file's own
header comment lists plain names such as "taco" as files of the root
directory.  At the failing input P = "", N = "foo" (and N = "foo/" for the
subdirectory validator) the spec's condition accepts but the code rejects. -/
theorem claim_C3_root_validators_reject :
    specFileNameOk [] ['f', 'o', 'o'] ∧
    checkObjectName [] ['f', 'o', 'o'] = some "Not a descendant." ∧
    specSubdirNameOk [] ['f', 'o', 'o', '/'] ∧
    checkSubdirName [] ['f', 'o', 'o', '/'] = some "Not a descendant." := by
  decide

/-! Claim theorems: invariant preservation. -/

/-- Claim C5: starting from a freshly constructed proxy for a legal
directory name, after any sequence of NoteNewObject, NoteNewSubdirectory,
NoteRemoval and List calls — with any arguments, clock instants and backend
responses — CheckInvariants still holds (none of its panics can fire). -/
theorem claim_C5_invariants_preserved (dir : Name) (ops : List ProxyOp)
    (hd : isDirName dir = true) :
    CheckInvariants (runOps (initProxy dir) ops) :=
  runOps_inv ops (inv_initProxy hd)

/-- Witness for C5 at a concrete run: a note, a refresh, a failed removal
and a stub subdirectory call on directory "a/". -/
theorem claim_C5_witness :
    isDirName ['a', '/'] = true ∧
    CheckInvariants (runOps (initProxy ['a', '/'])
      [ProxyOp.noteNewObject 0 ⟨['a', '/', 'x'], 1⟩,
       ProxyOp.listDir 0 (BackendResult.ok ⟨[⟨['a', '/', 'y'], 2⟩], [['a', '/', 'b', '/']]⟩),
       ProxyOp.noteRemoval 1 ['a', '/', 'x'],
       ProxyOp.noteNewSubdirectory 2 ['a', '/', 'b', '/']]) :=
  ⟨by decide, claim_C5_invariants_preserved ['a', '/'] _ (by decide)⟩

/-! Claim theorems: refresh error frame, cache reuse, error-path pruning. -/

theorem refreshedState_exp (now : Nat) (c2 : Contents) (lp : ListingProxy) :
    (refreshedState now c2 lp).contentsExpiration = now + ListingProxy_ListingCacheTTL := by
  rw [refreshedState_eq]

theorem clean_frame (now : Nat) (lp : ListingProxy) :
    (cleanChildModifications now lp).contents = lp.contents ∧
    (cleanChildModifications now lp).contentsExpiration = lp.contentsExpiration ∧
    (cleanChildModifications now lp).childModifications =
      lp.childModifications.dropWhile (fun m => decide (m.expiration ≤ now)) := by
  refine ⟨?_, ?_, ?_⟩ <;> rw [cleanChildModifications_eq]

/-- Claim C4: on a stale instance, a failed listing call or a backend name
that fails the refresh's validation makes List return an error — a
BackendInvariantViolation, a constructor distinct from the listing-failure
wrapper, in the bad-name case — and leaves the whole state (snapshot,
expiration, journal and index) exactly as it was. -/
theorem claim_C4_refresh_error_frame (now : Nat) (lp : ListingProxy)
    (hstale : ¬ now < lp.contentsExpiration) :
    (∀ msg, ListDir now (.failure msg) lp =
      (.error (.backendListingFailure ("gcsutil.List: " ++ msg)), lp, true)) ∧
    (∀ listing, hasBadName lp.name listing →
      ∃ msg, ListDir now (.ok listing) lp =
        (.error (.backendInvariantViolation msg), lp, true)) := by
  constructor
  · intro msg
    exact ListDir_of_ensure_error (ensureContents_failure hstale)
  · intro listing hbad
    rcases hbad with hbadobj | hbadsub
    · obtain ⟨msg, hpo⟩ := processObjects_error_of_bad lp.name listing.objects hbadobj []
      refine ⟨msg, ListDir_of_ensure_error ?_⟩
      rw [ensureContents.eq_def, if_neg hstale]
      simp only [hpo]
    · rcases processObjects_shape lp.name listing.objects [] with ⟨c1, hpo⟩ | ⟨msg, hpo⟩
      · obtain ⟨msg, hps⟩ := processSubdirs_error_of_bad lp.name listing.subdirs hbadsub c1
        refine ⟨msg, ListDir_of_ensure_error ?_⟩
        rw [ensureContents.eq_def, if_neg hstale]
        simp only [hpo, hps]
      · refine ⟨msg, ListDir_of_ensure_error ?_⟩
        rw [ensureContents.eq_def, if_neg hstale]
        simp only [hpo]

/-- Witness for C4: a fresh proxy for "a/" is stale; a failing backend and a
backend returning the non-descendant object "b" both error and leave the
state untouched. -/
theorem claim_C4_witness :
    (¬ (0 : Nat) < (initProxy ['a', '/']).contentsExpiration) ∧
    ListDir 0 (.failure "boom") (initProxy ['a', '/']) =
      (.error (.backendListingFailure ("gcsutil.List: " ++ "boom")),
        initProxy ['a', '/'], true) ∧
    hasBadName (initProxy ['a', '/']).name ⟨[⟨['b'], 1⟩], []⟩ ∧
    (∃ msg, ListDir 0 (.ok ⟨[⟨['b'], 1⟩], []⟩) (initProxy ['a', '/']) =
      (.error (.backendInvariantViolation msg), initProxy ['a', '/'], true)) :=
  ⟨by decide,
   (claim_C4_refresh_error_frame 0 (initProxy ['a', '/']) (by decide)).1 "boom",
   by decide,
   (claim_C4_refresh_error_frame 0 (initProxy ['a', '/']) (by decide)).2 _ (by decide)⟩

/-- Claim C8: if a List call completes a successful refresh at instant now,
a second List call at any instant still inside the Listing Cache TTL window
does not invoke the listing collaborator (its backend flag is false and it
just reads the stored snapshot); over the two calls the collaborator is
invoked exactly once (true then false). -/
theorem claim_C8_cache_reuse (now now2 : Nat) (br br2 : BackendResult) (lp : ListingProxy)
    (out : List StorageObject × List Name) (s1 : ListingProxy) (b1 : Bool)
    (hstale : ¬ now < lp.contentsExpiration)
    (h1 : ListDir now br lp = (.ok out, s1, b1))
    (h2 : now2 < now + ListingProxy_ListingCacheTTL) :
    b1 = true ∧
    ListDir now2 br2 s1 =
      (.ok (objectsOf s1.contents, subdirsOf s1.contents), s1, false) := by
  rcases he : ensureContents now br lp with ⟨r, s, bb⟩
  cases r with
  | error e =>
    rw [ListDir_of_ensure_error he] at h1
    simp at h1
  | ok u =>
    rw [ListDir_of_ensure_ok he] at h1
    simp only [Prod.mk.injEq] at h1
    obtain ⟨hout, hs, hb⟩ := h1
    obtain ⟨hbtrue, listing, c1, c2, hbr, hpo, hps, hsref⟩ := ensureContents_ok_stale hstale he
    have hexp : s1.contentsExpiration = now + ListingProxy_ListingCacheTTL := by
      rw [← hs, hsref, refreshedState_exp]
    have hf2 : now2 < s1.contentsExpiration := by
      rw [hexp]
      exact h2
    refine ⟨?_, ?_⟩
    · rw [← hb]
      exact hbtrue
    · rw [ListDir_of_ensure_ok (ensureContents_fresh hf2)]

/-- Witness for C8: an empty successful refresh on a fresh proxy for "a/",
then a second List five seconds later. -/
theorem claim_C8_witness :
    (¬ (0 : Nat) < (initProxy ['a', '/']).contentsExpiration) ∧
    (5000000000 : Nat) < 0 + ListingProxy_ListingCacheTTL ∧
    (true : Bool) = true ∧
    ListDir 5000000000 (.failure "down")
        (ListDir 0 (.ok ⟨[], []⟩) (initProxy ['a', '/'])).2.1 =
      (.ok (objectsOf (ListDir 0 (.ok ⟨[], []⟩) (initProxy ['a', '/'])).2.1.contents,
        subdirsOf (ListDir 0 (.ok ⟨[], []⟩) (initProxy ['a', '/'])).2.1.contents),
        (ListDir 0 (.ok ⟨[], []⟩) (initProxy ['a', '/'])).2.1, false) := by
  refine ⟨by decide, by decide, ?_, ?_⟩
  · exact (claim_C8_cache_reuse 0 5000000000 (.ok ⟨[], []⟩) (.failure "down")
      (initProxy ['a', '/']) ([], [])
      (ListDir 0 (.ok ⟨[], []⟩) (initProxy ['a', '/'])).2.1 true
      (by decide) (by decide) (by decide)).1
  · exact (claim_C8_cache_reuse 0 5000000000 (.ok ⟨[], []⟩) (.failure "down")
      (initProxy ['a', '/']) ([], [])
      (ListDir 0 (.ok ⟨[], []⟩) (initProxy ['a', '/'])).2.1 true
      (by decide) (by decide) (by decide)).2

/-- Claim C10: every Note* call that returns an error — NoteNewObject with
an invalid name, and every NoteNewSubdirectory or NoteRemoval call — leaves
the contents snapshot and its expiration unchanged, yet still prunes the
journal: the leading run of records whose expiration is not after the clock
instant is removed together with the matching index entries (the index still
matches the journal's names afterwards). -/
theorem claim_C10_error_paths_prune (now : Nat) (lp : ListingProxy)
    (hinv : CheckInvariants lp) :
    (∀ (o : StorageObject) (e : ProxyError) (s1 : ListingProxy),
      NoteNewObject now o lp = (.error e, s1) →
      s1.contents = lp.contents ∧ s1.contentsExpiration = lp.contentsExpiration ∧
      s1.childModifications =
        lp.childModifications.dropWhile (fun m => decide (m.expiration ≤ now)) ∧
      List.Perm (s1.childModifications.map ChildModification.name)
        s1.childModificationsIndex) ∧
    (∀ (n : Name) (r : Except ProxyError Unit) (s1 : ListingProxy),
      NoteNewSubdirectory now n lp = (r, s1) →
      (∃ e, r = .error e) ∧
      s1.contents = lp.contents ∧ s1.contentsExpiration = lp.contentsExpiration ∧
      s1.childModifications =
        lp.childModifications.dropWhile (fun m => decide (m.expiration ≤ now)) ∧
      List.Perm (s1.childModifications.map ChildModification.name)
        s1.childModificationsIndex) ∧
    (∀ (n : Name) (r : Except ProxyError Unit) (s1 : ListingProxy),
      NoteRemoval now n lp = (r, s1) →
      (∃ e, r = .error e) ∧
      s1.contents = lp.contents ∧ s1.contentsExpiration = lp.contentsExpiration ∧
      s1.childModifications =
        lp.childModifications.dropWhile (fun m => decide (m.expiration ≤ now)) ∧
      List.Perm (s1.childModifications.map ChildModification.name)
        s1.childModificationsIndex) := by
  have hfr := clean_frame now lp
  have hperm := (inv_clean hinv now).2.2.2.2
  have hpermd : List.Perm
      ((cleanChildModifications now lp).childModifications.map ChildModification.name)
      (cleanChildModifications now lp).childModificationsIndex := hperm
  refine ⟨?_, ?_, ?_⟩
  · intro o e s1 heq
    cases hchk : checkObjectName lp.name o.name with
    | none =>
      simp only [NoteNewObject, NoteNewObjectCore, hchk] at heq
      simp at heq
    | some msg =>
      simp only [NoteNewObject, NoteNewObjectCore, hchk] at heq
      simp only [Prod.mk.injEq] at heq
      rw [← heq.2]
      exact ⟨hfr.1, hfr.2.1, hfr.2.2, hpermd⟩
  · intro n r s1 heq
    cases hchk : checkSubdirName lp.name n with
    | some msg =>
      simp only [NoteNewSubdirectory, hchk] at heq
      simp only [Prod.mk.injEq] at heq
      refine ⟨⟨_, heq.1.symm⟩, ?_⟩
      rw [← heq.2]
      exact ⟨hfr.1, hfr.2.1, hfr.2.2, hpermd⟩
    | none =>
      simp only [NoteNewSubdirectory, hchk] at heq
      simp only [Prod.mk.injEq] at heq
      refine ⟨⟨_, heq.1.symm⟩, ?_⟩
      rw [← heq.2]
      exact ⟨hfr.1, hfr.2.1, hfr.2.2, hpermd⟩
  · intro n r s1 heq
    simp only [NoteRemoval, Prod.mk.injEq] at heq
    refine ⟨⟨_, heq.1.symm⟩, ?_⟩
    rw [← heq.2]
    exact ⟨hfr.1, hfr.2.1, hfr.2.2, hpermd⟩

/-- Witness for C10 at a concrete NoteRemoval call on the fresh proxy. -/
theorem claim_C10_witness :
    CheckInvariants (initProxy ['a', '/']) ∧
    ((∃ e, (NoteRemoval 0 ['x'] (initProxy ['a', '/'])).1 = .error e) ∧
     (NoteRemoval 0 ['x'] (initProxy ['a', '/'])).2.contents =
       (initProxy ['a', '/']).contents ∧
     (NoteRemoval 0 ['x'] (initProxy ['a', '/'])).2.contentsExpiration =
       (initProxy ['a', '/']).contentsExpiration ∧
     (NoteRemoval 0 ['x'] (initProxy ['a', '/'])).2.childModifications =
       (initProxy ['a', '/']).childModifications.dropWhile
         (fun m => decide (m.expiration ≤ 0)) ∧
     List.Perm
       ((NoteRemoval 0 ['x'] (initProxy ['a', '/'])).2.childModifications.map
         ChildModification.name)
       (NoteRemoval 0 ['x'] (initProxy ['a', '/'])).2.childModificationsIndex) :=
  ⟨by decide,
    (claim_C10_error_paths_prune 0 (initProxy ['a', '/']) (by decide)).2.2 ['x']
      (NoteRemoval 0 ['x'] (initProxy ['a', '/'])).1
      (NoteRemoval 0 ['x'] (initProxy ['a', '/'])).2 rfl⟩

/-! Claim theorems: supersede idempotence and note-then-list round trip. -/

theorem clean_name (now : Nat) (lp : ListingProxy) :
    (cleanChildModifications now lp).name = lp.name := by
  rw [cleanChildModifications_foldl]

theorem NoteNewObject_ok_state {lp : ListingProxy} (hinv : CheckInvariants lp)
    {o : StorageObject} (hchk : checkObjectName lp.name o.name = none) (now : Nat) :
    (NoteNewObject now o lp).1 = .ok () ∧
    (NoteNewObject now o lp).2.name = lp.name ∧
    mapLookup o.name (NoteNewObject now o lp).2.contents = some (.obj o) ∧
    newObjectRecord now o ∈ (NoteNewObject now o lp).2.childModifications ∧
    ((NoteNewObject now o lp).2.childModifications.map ChildModification.name).count
      o.name = 1 := by
  obtain ⟨hs_inv, hs_notmem, hs_name, hs_contents, hs_exp, hs_sub⟩ := supersede_inv hinv o.name
  have heq : NoteNewObject now o lp =
      (.ok (), cleanChildModifications now
        (playBackModification (newObjectRecord now o)
          (pushRecord (newObjectRecord now o) (supersede o.name lp)))) := by
    simp only [NoteNewObject, NoteNewObjectCore, hchk]
  rw [heq]
  have hexpired : decide ((newObjectRecord now o).expiration ≤ now) = false := by
    refine decide_eq_false ?_
    show ¬ now + ListingProxy_ModificationMemoryTTL ≤ now
    have hTTL : 0 < ListingProxy_ModificationMemoryTTL := by decide
    omega
  have hmemrec : newObjectRecord now o ∈
      (cleanChildModifications now
        (playBackModification (newObjectRecord now o)
          (pushRecord (newObjectRecord now o) (supersede o.name lp)))).childModifications := by
    rw [(clean_frame now _).2.2]
    refine mem_dropWhile_of_not ?_ hexpired
    exact List.mem_append_right _ (List.mem_singleton.mpr rfl)
  refine ⟨rfl, ?_, ?_, hmemrec, ?_⟩
  · rw [clean_name]
    exact hs_name
  · rw [(clean_frame now _).1]
    show mapLookup o.name
      (mapInsert o.name (Node.obj o) (supersede o.name lp).contents) = some (Node.obj o)
    rw [mapLookup_mapInsert, if_pos rfl]
  · have hcount2 : (((supersede o.name lp).childModifications ++
        [newObjectRecord now o]).map ChildModification.name).count o.name = 1 := by
      rw [List.map_append, List.count_append]
      have h0 : ((supersede o.name lp).childModifications.map
          ChildModification.name).count o.name = 0 :=
        List.count_eq_zero.mpr hs_notmem
      rw [h0]
      simp [newObjectRecord]
    have hsub2 : List.Sublist
        ((cleanChildModifications now
          (playBackModification (newObjectRecord now o)
            (pushRecord (newObjectRecord now o) (supersede o.name lp)))).childModifications)
        ((supersede o.name lp).childModifications ++ [newObjectRecord now o]) := by
      rw [(clean_frame now _).2.2]
      exact List.dropWhile_sublist _
    have hle := (hsub2.map ChildModification.name).count_le o.name
    rw [hcount2] at hle
    have hpos : 0 < ((cleanChildModifications now
        (playBackModification (newObjectRecord now o)
          (pushRecord (newObjectRecord now o) (supersede o.name lp)))).childModifications.map
        ChildModification.name).count o.name := by
      refine List.count_pos_iff.mpr ?_
      exact List.mem_map_of_mem ChildModification.name hmemrec
    exact Nat.le_antisymm hle hpos

/-- Claim C7: two NoteNewObject calls in succession with the same entry (at
any two instants) both succeed; afterwards the journal holds exactly one
record for that name — the later call superseded the earlier record instead
of duplicating it — and the snapshot maps the name to exactly that entry. -/
theorem claim_C7_note_idempotent (t1 t2 : Nat) (o : StorageObject) (lp : ListingProxy)
    (hinv : CheckInvariants lp) (hchk : checkObjectName lp.name o.name = none) :
    (NoteNewObject t1 o lp).1 = .ok () ∧
    (NoteNewObject t2 o (NoteNewObject t1 o lp).2).1 = .ok () ∧
    (((NoteNewObject t2 o (NoteNewObject t1 o lp).2).2.childModifications.map
        ChildModification.name).count o.name = 1) ∧
    mapLookup o.name (NoteNewObject t2 o (NoteNewObject t1 o lp).2).2.contents =
      some (.obj o) := by
  have hinv1 := inv_NoteNewObject t1 o hinv
  have h1 := NoteNewObject_ok_state hinv hchk t1
  have hchk1 : checkObjectName (NoteNewObject t1 o lp).2.name o.name = none := by
    rw [h1.2.1]
    exact hchk
  have h2 := NoteNewObject_ok_state hinv1 hchk1 t2
  exact ⟨h1.1, h2.1, h2.2.2.2.2, h2.2.2.1⟩

/-- Witness for C7: noting "a/x" twice on the fresh proxy for "a/". -/
theorem claim_C7_witness :
    CheckInvariants (initProxy ['a', '/']) ∧
    checkObjectName (initProxy ['a', '/']).name ['a', '/', 'x'] = none ∧
    ((((NoteNewObject 3 ⟨['a', '/', 'x'], 1⟩
        (NoteNewObject 0 ⟨['a', '/', 'x'], 1⟩
          (initProxy ['a', '/'])).2).2.childModifications.map
        ChildModification.name).count ['a', '/', 'x'] = 1) ∧
    mapLookup ['a', '/', 'x']
        (NoteNewObject 3 ⟨['a', '/', 'x'], 1⟩
          (NoteNewObject 0 ⟨['a', '/', 'x'], 1⟩ (initProxy ['a', '/'])).2).2.contents =
      some (.obj ⟨['a', '/', 'x'], 1⟩)) :=
  ⟨by decide, by decide,
    (claim_C7_note_idempotent 0 3 ⟨['a', '/', 'x'], 1⟩ (initProxy ['a', '/'])
      (by decide) (by decide)).2.2.1,
    (claim_C7_note_idempotent 0 3 ⟨['a', '/', 'x'], 1⟩ (initProxy ['a', '/'])
      (by decide) (by decide)).2.2.2⟩

/-- Claim C6: after a successful NoteNewObject(o), a List call at the same
instant that itself returns successfully includes o among the returned
files, whatever the backend behaviour is — the fresh path reads the patched
snapshot and the stale path re-applies the journal record on top of any
successful backend response, so o's presence never depends on the backend
reporting it. -/
theorem claim_C6_note_then_list (now : Nat) (o : StorageObject) (lp : ListingProxy)
    (br : BackendResult) (hinv : CheckInvariants lp) (s1 : ListingProxy)
    (h1 : NoteNewObject now o lp = (.ok (), s1))
    (out : List StorageObject × List Name) (s2 : ListingProxy) (b : Bool)
    (h2 : ListDir now br s1 = (.ok out, s2, b)) : o ∈ out.1 := by
  have hchk : checkObjectName lp.name o.name = none := by
    cases hchk : checkObjectName lp.name o.name with
    | none => rfl
    | some msg =>
      simp only [NoteNewObject, NoteNewObjectCore, hchk] at h1
      simp at h1
  have hst := NoteNewObject_ok_state hinv hchk now
  have hs1 : s1 = (NoteNewObject now o lp).2 := by rw [h1]
  subst hs1
  have hinv1 : CheckInvariants (NoteNewObject now o lp).2 := inv_NoteNewObject now o hinv
  rcases he : ensureContents now br (NoteNewObject now o lp).2 with ⟨r, s, bb⟩
  cases r with
  | error e =>
    rw [ListDir_of_ensure_error he] at h2
    simp at h2
  | ok u =>
    rw [ListDir_of_ensure_ok he] at h2
    simp only [Prod.mk.injEq] at h2
    obtain ⟨hout, hs, hb⟩ := h2
    have hout1 : out.1 = objectsOf s.contents := by
      simp only [Except.ok.injEq] at hout
      rw [← hout]
    rw [hout1]
    by_cases hf : now < (NoteNewObject now o lp).2.contentsExpiration
    · rw [ensureContents_fresh hf] at he
      simp only [Prod.mk.injEq] at he
      obtain ⟨-, hseq, -⟩ := he
      refine mem_objectsOf.mpr ⟨(o.name, Node.obj o), ?_, rfl⟩
      apply mapLookup_mem
      rw [← hseq]
      exact hst.2.2.1
    · obtain ⟨hbb, listing, c1, c2, hbr, hpo, hps, hsref⟩ := ensureContents_ok_stale hf he
      have hmem : newObjectRecord now o ∈
          (cleanChildModifications now (NoteNewObject now o lp).2).childModifications := by
        rw [(clean_frame now _).2.2]
        refine mem_dropWhile_of_not hst.2.2.2.1 ?_
        refine decide_eq_false ?_
        show ¬ now + ListingProxy_ModificationMemoryTTL ≤ now
        have hTTL : 0 < ListingProxy_ModificationMemoryTTL := by decide
        omega
      have hnodup := (inv_clean hinv1 now).2.2.2.1
      have hlook : mapLookup o.name s.contents = some (Node.obj o) := by
        rw [hsref, refreshedState_eq]
        exact foldl_applyMod_lookup _ c2 (newObjectRecord now o) hnodup hmem
      exact mem_objectsOf.mpr ⟨(o.name, Node.obj o), mapLookup_mem hlook, rfl⟩

/-- Witness for C6: note "a/x", then List with a backend that reports
nothing at all; the result still contains "a/x". -/
theorem claim_C6_witness :
    CheckInvariants (initProxy ['a', '/']) ∧
    NoteNewObject 0 ⟨['a', '/', 'x'], 1⟩ (initProxy ['a', '/']) =
      (.ok (), (NoteNewObject 0 ⟨['a', '/', 'x'], 1⟩ (initProxy ['a', '/'])).2) ∧
    (⟨['a', '/', 'x'], 1⟩ : StorageObject) ∈
      (objectsOf (ListDir 0 (.ok ⟨[], []⟩)
          (NoteNewObject 0 ⟨['a', '/', 'x'], 1⟩ (initProxy ['a', '/'])).2).2.1.contents,
        subdirsOf (ListDir 0 (.ok ⟨[], []⟩)
          (NoteNewObject 0 ⟨['a', '/', 'x'], 1⟩ (initProxy ['a', '/'])).2).2.1.contents).1 :=
  ⟨by decide, by decide,
    claim_C6_note_then_list 0 ⟨['a', '/', 'x'], 1⟩ (initProxy ['a', '/'])
      (.ok ⟨[], []⟩) (by decide)
      (NoteNewObject 0 ⟨['a', '/', 'x'], 1⟩ (initProxy ['a', '/'])).2 (by decide)
      (objectsOf (ListDir 0 (.ok ⟨[], []⟩)
          (NoteNewObject 0 ⟨['a', '/', 'x'], 1⟩ (initProxy ['a', '/'])).2).2.1.contents,
        subdirsOf (ListDir 0 (.ok ⟨[], []⟩)
          (NoteNewObject 0 ⟨['a', '/', 'x'], 1⟩ (initProxy ['a', '/'])).2).2.1.contents)
      (ListDir 0 (.ok ⟨[], []⟩)
        (NoteNewObject 0 ⟨['a', '/', 'x'], 1⟩ (initProxy ['a', '/'])).2).2.1
      true (by decide)⟩

/-! Claim theorems: placeholder filtering. -/

theorem processObjects_placeholder (n : Name) (p : StorageObject) (hp : p.name = n)
    (l2 : List StorageObject) :
    ∀ (l1 : List StorageObject) (acc : Contents),
      processObjects n (l1 ++ p :: l2) acc = processObjects n (l1 ++ l2) acc := by
  intro l1
  induction l1 with
  | nil =>
    intro acc
    rw [List.nil_append, List.nil_append]
    simp only [processObjects]
    rw [if_pos hp]
  | cons a rest ih =>
    intro acc
    rw [List.cons_append, List.cons_append]
    simp only [processObjects]
    by_cases h1 : a.name = n
    · simp only [if_pos h1]
      exact ih acc
    · simp only [if_neg h1]
      cases hc : checkObjectName n a.name with
      | some msg => simp only [hc]
      | none =>
        simp only [hc]
        exact ih _

theorem ensureContents_stale_ok_eq {now : Nat} {lp : ListingProxy}
    (hst : ¬ now < lp.contentsExpiration) (listing : DirListing) :
    ensureContents now (.ok listing) lp =
      (match processObjects lp.name listing.objects [] with
       | .error e => (.error e, lp, true)
       | .ok c1 =>
         match processSubdirs lp.name listing.subdirs c1 with
         | .error e => (.error e, lp, true)
         | .ok c2 => (.ok (), refreshedState now c2 lp, true)) := by
  rw [ensureContents.eq_def, if_neg hst]

theorem ensureContents_name (now : Nat) (br : BackendResult) (lp : ListingProxy) :
    (ensureContents now br lp).2.1.name = lp.name := by
  by_cases hf : now < lp.contentsExpiration
  · rw [ensureContents_fresh hf]
  · cases br with
    | failure msg => rw [ensureContents_failure hf]
    | ok listing =>
      rw [ensureContents_stale_ok_eq hf]
      cases hpo : processObjects lp.name listing.objects [] with
      | error e => simp only [hpo]
      | ok c1 =>
        simp only [hpo]
        cases hps : processSubdirs lp.name listing.subdirs c1 with
        | error e => simp only [hps]
        | ok c2 =>
          simp only [hps]
          rw [refreshedState_eq]

/-- Claim C9: an object in the backend response whose name equals the
directory identity is discarded before validation: running the refresh with
it present is literally the same computation as running it without it (so
it is neither validated nor stored), and a successful List never returns an
object named exactly like the directory. -/
theorem claim_C9_placeholder_discarded :
    (∀ (now : Nat) (lp : ListingProxy) (p : StorageObject)
        (l1 l2 : List StorageObject) (ds : List Name), p.name = lp.name →
      ensureContents now (.ok ⟨l1 ++ p :: l2, ds⟩) lp =
        ensureContents now (.ok ⟨l1 ++ l2, ds⟩) lp) ∧
    (∀ (now : Nat) (br : BackendResult) (lp : ListingProxy)
        (out : List StorageObject × List Name) (s2 : ListingProxy) (b : Bool),
      CheckInvariants lp → ListDir now br lp = (.ok out, s2, b) →
      ∀ o ∈ out.1, o.name ≠ lp.name) := by
  constructor
  · intro now lp p l1 l2 ds hp
    by_cases hf : now < lp.contentsExpiration
    · rw [ensureContents_fresh hf, ensureContents_fresh hf]
    · rw [ensureContents_stale_ok_eq hf, ensureContents_stale_ok_eq hf]
      have hobj : processObjects lp.name (l1 ++ p :: l2) [] =
          processObjects lp.name (l1 ++ l2) [] :=
        processObjects_placeholder lp.name p hp l2 l1 []
      dsimp only
      rw [hobj]
  · intro now br lp out s2 b hinv hld o ho
    have hinv2 : CheckInvariants (ListDir now br lp).2.1 := inv_ListDir now br hinv
    have hname2 : (ListDir now br lp).2.1.name = lp.name := by
      have hsame : (ListDir now br lp).2 = (ensureContents now br lp).2 :=
        ListDir_state now br lp
      have hsame1 : (ListDir now br lp).2.1 = (ensureContents now br lp).2.1 := by
        rw [hsame]
      rw [hsame1, ensureContents_name]
    rcases he : ensureContents now br lp with ⟨r, s, bb⟩
    cases r with
    | error e =>
      rw [ListDir_of_ensure_error he] at hld
      simp at hld
    | ok u =>
      have hldir := ListDir_of_ensure_ok he
      rw [hldir] at hld
      simp only [Prod.mk.injEq, Except.ok.injEq] at hld
      obtain ⟨hout, hs, hb⟩ := hld
      rw [hldir] at hinv2 hname2
      have hinvs : CheckInvariants s := hinv2
      have hnames : s.name = lp.name := hname2
      have ho2 : o ∈ objectsOf s.contents := by
        rw [← hout] at ho
        exact ho
      obtain ⟨pq, hpq, hpq2⟩ := mem_objectsOf.mp ho2
      have hE := hinvs.2.1 pq hpq
      have hne := hE.1.2
      have hnm := hE.2.1
      rw [hpq2] at hnm
      simp only [Node.nodeName] at hnm
      rw [← hnames]
      rw [← hnm]
      exact hne

/-- Witness for C9: the placeholder "a/" in the middle of a response is
dropped, and a successful refresh never returns an object named "a/". -/
theorem claim_C9_witness :
    ((⟨['a', '/'], 9⟩ : StorageObject).name = (initProxy ['a', '/']).name) ∧
    ensureContents 0 (.ok ⟨[⟨['a', '/', 'y'], 2⟩] ++ ⟨['a', '/'], 9⟩ :: [], []⟩)
        (initProxy ['a', '/']) =
      ensureContents 0 (.ok ⟨[⟨['a', '/', 'y'], 2⟩] ++ [], []⟩) (initProxy ['a', '/']) ∧
    CheckInvariants (initProxy ['a', '/']) ∧
    (∀ o ∈ (objectsOf (ListDir 0 (.ok ⟨[⟨['a', '/', 'y'], 2⟩], []⟩)
          (initProxy ['a', '/'])).2.1.contents,
        subdirsOf (ListDir 0 (.ok ⟨[⟨['a', '/', 'y'], 2⟩], []⟩)
          (initProxy ['a', '/'])).2.1.contents).1,
      o.name ≠ (initProxy ['a', '/']).name) :=
  ⟨by decide,
   (claim_C9_placeholder_discarded).1 0 (initProxy ['a', '/']) ⟨['a', '/'], 9⟩
     [⟨['a', '/', 'y'], 2⟩] [] [] (by decide),
   by decide,
   (claim_C9_placeholder_discarded).2 0 (.ok ⟨[⟨['a', '/', 'y'], 2⟩], []⟩)
     (initProxy ['a', '/'])
     (objectsOf (ListDir 0 (.ok ⟨[⟨['a', '/', 'y'], 2⟩], []⟩)
         (initProxy ['a', '/'])).2.1.contents,
       subdirsOf (ListDir 0 (.ok ⟨[⟨['a', '/', 'y'], 2⟩], []⟩)
         (initProxy ['a', '/'])).2.1.contents)
     (ListDir 0 (.ok ⟨[⟨['a', '/', 'y'], 2⟩], []⟩) (initProxy ['a', '/'])).2.1
     true (by decide) (by decide)⟩

/-! The validators against the spec formulas, for nonempty identities. -/

theorem isDirName_true_iff (n : Name) :
    isDirName n = true ↔ (n = [] ∨ n.getLast? = some '/') := by
  simp [isDirName]

theorem mem_of_getLast?_eq {l : Name} {a : Char} (h : l.getLast? = some a) : a ∈ l := by
  induction l with
  | nil => cases h
  | cons c rest ih =>
    cases rest with
    | nil =>
      simp only [List.getLast?_singleton, Option.some.injEq] at h
      rw [← h]
      exact List.mem_singleton.mpr rfl
    | cons d r2 =>
      rw [List.getLast?_cons_cons] at h
      exact List.mem_cons_of_mem c (ih h)

theorem count_cons_slash_self (l : Name) : ('/' :: l).count '/' = l.count '/' + 1 := by
  rw [List.count_cons]
  simp

theorem count_cons_slash_ne {c : Char} (h : c ≠ '/') (l : Name) :
    (c :: l).count '/' = l.count '/' := by
  rw [List.count_cons]
  simp [h]

theorem getLast?_cons_of_ne_nil (c : Char) {l : Name} (h : l ≠ []) :
    (c :: l).getLast? = l.getLast? := by
  obtain ⟨d, r2, rfl⟩ := List.exists_cons_of_ne_nil h
  rw [List.getLast?_cons_cons]

theorem indexOfSlash_last_iff (r : Name) :
    indexOfSlash r = (r.length : Int) - 1 ↔
      (r = [] ∨ (r.count '/' = 1 ∧ r.getLast? = some '/')) := by
  induction r with
  | nil => simp [indexOfSlash]
  | cons c rest ih =>
    by_cases hc : c = '/'
    · subst hc
      cases rest with
      | nil => simp [indexOfSlash]
      | cons d rest2 =>
        have hlhs : indexOfSlash ('/' :: d :: rest2) = 0 := by
          simp [indexOfSlash]
        rw [hlhs]
        constructor
        · intro h
          exfalso
          simp only [List.length_cons] at h
          omega
        · rintro (h | ⟨hcount, hlast⟩)
          · cases h
          · exfalso
            rw [List.getLast?_cons_cons] at hlast
            have hmem : '/' ∈ d :: rest2 := mem_of_getLast?_eq hlast
            rw [count_cons_slash_self] at hcount
            have hcnt : (d :: rest2).count '/' = 0 := by omega
            exact List.count_eq_zero.mp hcnt hmem
    · by_cases hr : indexOfSlash rest < 0
      · have hnotmem : '/' ∉ rest := (indexOfSlash_neg_iff rest).mp hr
        have hlhs : indexOfSlash (c :: rest) = -1 := by
          simp [indexOfSlash, hc, hr]
        rw [hlhs]
        constructor
        · intro h
          exfalso
          simp only [List.length_cons] at h
          omega
        · rintro (h | ⟨hcount, hlast⟩)
          · cases h
          · exfalso
            rw [count_cons_slash_ne hc] at hcount
            have hmem : '/' ∈ rest := by
              refine List.count_pos_iff.mp ?_
              omega
            exact hnotmem hmem
      · have hmem : '/' ∈ rest := by
          by_contra hcon
          exact hr ((indexOfSlash_neg_iff rest).mpr hcon)
        have hrest_ne : rest ≠ [] := by
          rintro rfl
          cases hmem
        have hlhs : indexOfSlash (c :: rest) = indexOfSlash rest + 1 := by
          simp [indexOfSlash, hc, hr]
        rw [hlhs]
        have hstep : (indexOfSlash rest + 1 = ((c :: rest).length : Int) - 1) ↔
            (indexOfSlash rest = ((rest.length : Int) - 1)) := by
          simp only [List.length_cons]
          omega
        rw [hstep, ih, count_cons_slash_ne hc, getLast?_cons_of_ne_nil c hrest_ne]
        constructor
        · rintro (h | h)
          · exact absurd h hrest_ne
          · exact Or.inr h
        · rintro (h | h)
          · cases h
          · exact Or.inr h

theorem checkObjectName_spec_of_ne_nil {P N : Name} (hP : isDirName P = true)
    (hne : P ≠ []) : checkObjectName P N = none ↔ specFileNameOk P N := by
  rw [checkObjectName_none_iff, specFileNameOk]
  constructor
  · rintro ⟨hd, htrim, hslash⟩
    obtain ⟨hpre, -⟩ := (ne_trimPrefix_iff P N).mp htrim
    obtain ⟨hNne, hNlast⟩ := (isDirName_false_iff N).mp hd
    refine ⟨hpre, ?_, hNlast, ?_⟩
    · intro hNP
      have hPlast : P.getLast? = some '/' := by
        rcases (isDirName_true_iff P).mp hP with h | h
        · exact absurd h hne
        · exact h
      rw [hNP] at hNlast
      exact hNlast hPlast
    · rw [trimPrefix_eq_drop hpre] at hslash
      exact hslash
  · rintro ⟨hpre, hNP, hNlast, hdrop⟩
    have hNne : N ≠ [] := by
      rintro rfl
      exact hne (List.prefix_nil.mp hpre)
    refine ⟨(isDirName_false_iff N).mpr ⟨hNne, hNlast⟩,
      (ne_trimPrefix_iff P N).mpr ⟨hpre, hne⟩, ?_⟩
    rw [trimPrefix_eq_drop hpre]
    exact hdrop

theorem checkSubdirName_spec_of_ne_nil {P N : Name}
    (hne : P ≠ []) : checkSubdirName P N = none ↔ specSubdirNameOk P N := by
  rw [checkSubdirName_none_iff, specSubdirNameOk]
  constructor
  · rintro ⟨hdir, hne2, hidx⟩
    push_neg at hne2
    obtain ⟨hNP, hNtrim⟩ := hne2
    obtain ⟨hpre, -⟩ := (ne_trimPrefix_iff P N).mp hNtrim
    rw [trimPrefix_eq_drop hpre] at hidx
    have hNne : N ≠ [] := by
      rintro rfl
      exact hne (List.prefix_nil.mp hpre)
    have hNlast : N.getLast? = some '/' := by
      rcases (isDirName_true_iff N).mp hdir with h | h
      · exact absurd h hNne
      · exact h
    rcases (indexOfSlash_last_iff _).mp hidx with hrnil | ⟨hc, hl⟩
    · exfalso
      have hlen0 := congrArg List.length hrnil
      rw [List.length_drop] at hlen0
      simp only [List.length_nil] at hlen0
      have hlen2 : P.length ≤ N.length := hpre.length_le
      have hlen : P.length = N.length := by omega
      exact hNP (hpre.eq_of_length hlen).symm
    · exact ⟨hNlast, hNP, hpre, hc, hl⟩
  · rintro ⟨hlast, hNP, hpre, hcount, hrlast⟩
    refine ⟨(isDirName_true_iff N).mpr (Or.inr hlast), ?_, ?_⟩
    · push_neg
      exact ⟨hNP, (ne_trimPrefix_iff P N).mpr ⟨hpre, hne⟩⟩
    · rw [trimPrefix_eq_drop hpre]
      exact (indexOfSlash_last_iff _).mpr (Or.inr ⟨hcount, hrlast⟩)

end GCSProxy
